import Mathlib

/-!
Minipyth: a shallow embedding of the interpreter.

This file embeds the Minipyth interpreter (`src/main.rs`) in Lean 4:
the value model (`Object`), the primitive table (`BasicFunc.execute`,
`BasicFunc.inverse_execute`), the fuel-indexed evaluator for the
expression tree (`Func.execute`, `Func.inverse_execute`), the lexer
(`lex`) and the stack-machine parser (`parse`).

Modelling conventions:
* Rust `BigInt` is `Int`; `usize` magnitudes are `Nat`.
* A Rust panic, an unimplemented arm, a failed assertion, or an arithmetic
  overflow in a debug build, is modelled as `none`.
* The Rust evaluator recurses without a termination guarantee
  (`While`, `FixedPoint`, and the growing `Inverse` fallback), so the
  embedded evaluator threads a fuel parameter; `none` also means
  "out of fuel".  The fuel is an artifact of the embedding: theorems
  are stated for arbitrary or sufficient fuel.
-/

namespace Minipyth

/-- Rust `enum Object { Int(BigInt), List(Vec<Object>), Error(String) }`. -/
inductive Object where
  | int : Int → Object
  | list : List Object → Object
  | error : String → Object
deriving Repr

instance : Inhabited Object := ⟨.int 0⟩

mutual

/-- Structural equality test on `Object`, the model of the derived Rust
`PartialEq`/`Eq`/`Hash` used by `HashSet::contains` in `FixedPoint`. -/
def Object.beq : Object → Object → Bool
  | .int a, .int b => a == b
  | .error a, .error b => a == b
  | .list a, .list b => Object.beqList a b
  | _, _ => false

/-- Elementwise `Object.beq` on lists. -/
def Object.beqList : List Object → List Object → Bool
  | [], [] => true
  | a :: as', b :: bs => Object.beq a b && Object.beqList as' bs
  | _, _ => false

end

/-- Rust `Object::is_truthy`: nonzero integer, nonempty list; `Error` is falsy. -/
def Object.is_truthy : Object → Bool
  | .int i => i != 0
  | .list l => !l.isEmpty
  | .error _ => false

/-- Whether an `Object` is the `Error` variant (Rust `matches!(_, Error(_))`). -/
def Object.isError : Object → Bool
  | .error _ => true
  | _ => false

/-- Whether an `Object` is the `Int` variant (Rust `matches!(_, Int(_))`). -/
def Object.isInt : Object → Bool
  | .int _ => true
  | _ => false

/-- Rust `Object::to_list` ("sequence coercion"): a list gives its elements,
a non-negative integer `n` gives `[0, …, n-1]`, a negative integer `n` gives
`[|n|-1, …, 0]`; on `Error` the Rust code panics, modelled as `none`. -/
def Object.to_list : Object → Option (List Object)
  | .int i =>
    if i < 0 then some (((List.range (-i).toNat).map fun j => Object.int j).reverse)
    else some ((List.range i.toNat).map fun j => Object.int j)
  | .list l => some l
  | .error _ => none

/-- Rust `struct SortKey(bool, BigInt, Vec<SortKey>)`. -/
inductive SortKey where
  | mk : Bool → Int → List SortKey → SortKey

mutual

/-- Lexicographic comparison of sort keys, the model of the derived Rust
`Ord` on `SortKey` (field by field; `Vec` compares lexicographically). -/
def SortKey.cmp : SortKey → SortKey → Ordering
  | .mk b1 i1 l1, .mk b2 i2 l2 =>
    (compare b1 b2).then ((compare i1 i2).then (SortKey.cmpList l1 l2))

/-- Lexicographic comparison of lists of sort keys. -/
def SortKey.cmpList : List SortKey → List SortKey → Ordering
  | [], [] => .eq
  | [], _ :: _ => .lt
  | _ :: _, [] => .gt
  | a :: as', b :: bs => (SortKey.cmp a b).then (SortKey.cmpList as' bs)

end

/-- Rust `Object::to_key`: `Int i ↦ (false, i, [])`,
`List l ↦ (true, 0, keys of l)`, `Error ↦ (true, 1, [])`. -/
def Object.to_key : Object → SortKey
  | .int i => .mk false i []
  | .list l => .mk true 0 (l.attach.map fun x => Object.to_key x.1)
  | .error _ => .mk true 1 []
decreasing_by
  have := List.sizeOf_lt_of_mem x.2
  simp only [Object.list.sizeOf_spec]
  omega

/-- Rust `enum BasicFunc`. -/
inductive BasicFunc where
  | head | tail | sum | product | powerSet | length | negate | equal | combine | allPair
deriving Repr, DecidableEq

/-- Numeric sum of a list of `Int` objects (non-integers contribute nothing;
`BasicFunc.execute` only calls this when every element is an integer).
Models the `.sum()` in the `(Sum, List)` arm. -/
def sumInts (l : List Object) : Int :=
  l.foldl (fun acc e => match e with | .int i => acc + i | _ => acc) 0

/-- Numeric product of a list of `Int` objects, as `sumInts`. -/
def prodInts (l : List Object) : Int :=
  l.foldl (fun acc e => match e with | .int i => acc * i | _ => acc) 1

/-- One-level flattening: `Int` and `Error` elements are kept as-is, the
elements of `List` elements are spliced in.  Models the `else` branch of
the `(Sum, List)` arm. -/
def flattenOne (l : List Object) : List Object :=
  (l.map fun e => match e with | .list xs => xs | e => [e]).flatten

/-- Trial-division factor accumulation, the loop in the `(Product, Int)` arm:
`j = jm2 + 2` runs upward while `j * j ≤ work`; a dividing `j` is recorded and
divided out (without advancing `j`); finally a residue `> 1` is appended. -/
def factorLoop (jm2 work : Nat) : List Nat :=
  if h : (jm2 + 2) * (jm2 + 2) ≤ work then
    if work % (jm2 + 2) = 0 then (jm2 + 2) :: factorLoop jm2 (work / (jm2 + 2))
    else factorLoop (jm2 + 1) work
  else if work > 1 then [work] else []
termination_by (work, work - jm2)
decreasing_by
  · left
    exact Nat.div_lt_self (by nlinarith) (by omega)
  · right
    have h2 : jm2 + 2 ≤ work := le_trans (by nlinarith) h
    omega

/-- Trial-division primality loop in the `(Product, Int)` inverse arm:
`div = dm2 + 2` runs upward while `div * div ≤ n`; any divisor found means
"not prime". -/
def isPrimeLoop (dm2 n : Nat) : Bool :=
  if h : (dm2 + 2) * (dm2 + 2) ≤ n then
    if n % (dm2 + 2) = 0 then false else isPrimeLoop (dm2 + 1) n
  else true
termination_by n - dm2
decreasing_by
  have : dm2 + 2 ≤ n := le_trans (by nlinarith) h
  omega

/-- Cartesian product of a list of lists ("all ordered selections, one from
each sub-sequence"), the staged-lists loop of the `(Product, List)` arm. -/
def cartesian (ls : List (List Object)) : List (List Object) :=
  ls.foldl
    (fun staged sub => (staged.map fun old => sub.map fun e => old ++ [e]).flatten)
    [[]]

/-- The length contribution of one `Combine` element: `1` for an integer, the
inner length for a list (the closure inside the `longest` computation;
`Error` is unreachable there as errors were already filtered out). -/
def elemLen : Object → Nat
  | .int _ => 1
  | .list inner => inner.length
  | .error _ => 0

/-- One `Combine` output row: the `index`-th item of each list element, the
element itself for an integer when `index = 0`, nothing otherwise. -/
def combineRow (l : List Object) (index : Nat) : List Object :=
  (l.map fun e =>
      match e with
      | .int i => if index = 0 then [Object.int i] else []
      | .list inner => (inner.get? index).toList
      | .error _ => []).flatten

/-- The elements of subset `i` of `l`: element `j` is included iff bit `j`
of `i` is set (the mask loop of the `(PowerSet, List)` arm). -/
def maskSubset (i : Nat) (l : List Object) : List Object :=
  (l.enum.filter fun p => i.testBit p.1).map Prod.snd

/-- Little-endian binary digits, by structural recursion on a fuel that the
wrapper instantiates with `n` itself (always sufficient since `n / 2 < n`). -/
def bitsLEAux : Nat → Nat → List Nat
  | 0, _ => []
  | fuel + 1, n => if n = 0 then [] else n % 2 :: bitsLEAux fuel (n / 2)

/-- Little-endian binary digits of a natural number (empty for `0`). -/
def bitsLE (n : Nat) : List Nat := bitsLEAux n n

/-- Big-endian binary digits as produced by `BigInt::to_radix_be(2)`:
most-significant first, and `0` yields the single digit `[0]`. -/
def natBits (n : Nat) : List Nat :=
  if n = 0 then [0] else (bitsLE n).reverse

/-- Rust `BasicFunc::execute`, the forward primitive table.  `none` models a
Rust panic (including debug-build arithmetic overflow). -/
def BasicFunc.execute (p : BasicFunc) (arg : Object) : Option Object :=
  match p, arg with
  | .head, .int i => some (.int (i + 1))
  | .head, .list [] => some (.error "Head of empty list")
  | .head, .list (x :: _) => some x
  | .tail, .int i => some (.int (i - 1))
  | .tail, .list [] => some (.error "Tail of empty list")
  | .tail, .list (_ :: xs) => some (.list xs)
  | .sum, .int i => some (.int (if i = 0 then 1 else 0))
  | .sum, .list l =>
    if l.all Object.isInt then some (.int (sumInts l))
    else some (.list (flattenOne l))
  | .product, .int i =>
    if i.natAbs < 2 then some (.list [])
    else some (.list ((factorLoop 0 i.natAbs).map fun f => Object.int f))
  | .product, .list l =>
    if l.all Object.isInt then some (.int (prodInts l))
    else if l.any Object.isError then none
    else do
      let ls ← l.mapM Object.to_list
      some (.list ((cartesian ls).map Object.list))
  | .combine, .list l =>
    match l.find? Object.isError with
    | some e => some e
    | none =>
      match (l.map elemLen).max? with
      | none => none
      | some longest =>
        some (.list ((List.range longest).map fun index => .list (combineRow l index)))
  | .powerSet, .int i =>
    if i < 0 then some (.error "Negative exponent in power set")
    else if 2 ^ 64 ≤ i then none
    else some (.int (2 ^ (i.toNat % 2 ^ 32)))
  | .powerSet, .list l =>
    if 64 ≤ l.length then none
    else some (.list ((List.range (2 ^ l.length)).map fun i => .list (maskSubset i l)))
  | .length, .list l => some (.int l.length)
  | .length, .int i => some (.list ((natBits i.natAbs).map fun b => Object.int b))
  | .negate, .int i => some (.int (-i))
  | .negate, .list l => some (.list l.reverse)
  | .equal, .list l =>
    match l.getLast? with
    | none => some (.int 1)
    | some last =>
      if l.dropLast.all fun e => Object.beq e last then some (.int 1)
      else some (.int 0)
  | .allPair, .list l =>
    if 2 ≤ l.length ∧ (l.drop 1).any fun e => !e.isInt && !e.isError then
      match l with
      | first :: rest => do
        let restLists ← rest.mapM Object.to_list
        let out := restLists.map fun list =>
          Object.list (list.map fun e => .list [first, e])
        match out with
        | [x] => some x
        | _ => some (.list out)
      | [] => none
    else if 2 ≤ l.length ∧ (l.headI.isInt = false ∧ l.headI.isError = false) then
      match l with
      | x0 :: second :: rest2 => do
        let restLists ← (x0 :: rest2).mapM Object.to_list
        let out := restLists.map fun list =>
          Object.list (list.map fun e => .list [e, second])
        match out with
        | [x] => some x
        | _ => some (.list out)
      | _ => none
    else
      some (.list (l.map fun e => .list [.list l, e]))
  | .allPair, .int i => do
    let list ← Object.to_list (.int i)
    some (.list (list.map fun e => .list [.int i, e]))
  | _, .error s => some (.error s)
  | _, _ => none

/-- Rust `BasicFunc::inverse_execute`, the inverse primitive table.  `none`
models a Rust panic (the "unimplemented" arms). -/
def BasicFunc.inverse_execute (p : BasicFunc) (arg : Object) : Option Object :=
  match p, arg with
  | .head, .int i => some (.int (i - 1))
  | .head, .list [] => some (.error "End (inverse head) of empty list")
  | .head, .list (x :: xs) => some ((x :: xs).getLast (by simp))
  | .tail, .list [] => some (.error "Inverse tail of empty list")
  | .tail, .list (x :: xs) => some (.list (x :: xs).dropLast)
  | .product, .list [.int num, .int den] =>
    if den = 0 then some (.error "Divide by zero")
    else some (.list [.int (num.tdiv den), .int (num.tmod den)])
  | .product, .list [_, _] => none
  | .product, .int i =>
    if i ≤ 1 then some (.int 0)
    else some (.int (if isPrimeLoop 0 i.natAbs then 1 else 0))
  | .length, .list l =>
    if l.all Object.isInt then
      some (.int (l.foldl (fun total b =>
        match b with | .int i => total * 2 + i | _ => total) 0))
    else none
  | .sum, arg => some (.list [arg])
  | _, .error s => some (.error s)
  | _, _ => none

/-- Rust `enum HigherFunc`. -/
inductive HigherFunc where
  | map | filter | order | fixedPoint | inverse | repeat
deriving Repr, DecidableEq

/-- Rust `enum DoubleFunc`. -/
inductive DoubleFunc where
  | whileF | bifurcate
deriving Repr, DecidableEq

/-- Rust `enum Func`: a primitive, a higher-order operator with a body, a
double operator with two bodies, or a composition. -/
inductive Func where
  | basic : BasicFunc → Func
  | higher : HigherFunc → Func → Func
  | double : DoubleFunc → Func → Func → Func
  | bound : List Func → Func
deriving Repr

/-- Rust `HigherFunc::first_error`: the first `Error` element of the list if
any (Rust removes it from the list and returns it), else the whole list. -/
def firstError (l : List Object) : Object :=
  match l.find? Object.isError with
  | some e => e
  | none => .list l

/-- Apply `g` to every element, propagating `none` (a panic aborts the whole
evaluation); models `list.into_iter().map(|obj| func.execute(obj)).collect()`. -/
def mapMOpt (g : Object → Option Object) : List Object → Option (List Object)
  | [] => some []
  | x :: xs =>
    (g x).bind fun y => (mapMOpt g xs).bind fun ys => some (y :: ys)

/-- Keep the elements on which `g` returns a truthy value; models
`list.retain(|obj| func.execute(obj.clone()).is_truthy())`. -/
def filterOpt (g : Object → Option Object) : List Object → Option (List Object)
  | [] => some []
  | x :: xs =>
    (g x).bind fun r => (filterOpt g xs).bind fun rest =>
      some (if r.is_truthy then x :: rest else rest)

/-- Pair every element with the sort key of its image under `g`; models the
key computation of `list.sort_by_key(...)`. -/
def keyPairs (g : Object → Option Object) : List Object → Option (List (Object × SortKey))
  | [] => some []
  | x :: xs =>
    (g x).bind fun r => (keyPairs g xs).bind fun rest => some ((x, r.to_key) :: rest)

/-- Insert `x` after every entry whose key is `≤` the key of `x` (so that the
resulting insertion sort is stable, as Rust `sort_by_key` is). -/
def keyInsert {α : Type} (x : α × SortKey) : List (α × SortKey) → List (α × SortKey)
  | [] => [x]
  | y :: ys => if SortKey.cmp y.2 x.2 = .gt then x :: y :: ys else y :: keyInsert x ys

/-- Stable sort by the attached `SortKey`; extensionally the Rust stable
`sort_by_key` (a stable sort by a fixed key function is unique). -/
def keySort {α : Type} (l : List (α × SortKey)) : List (α × SortKey) :=
  l.foldl (fun acc x => keyInsert x acc) []

/-- Apply `step` in sequence along the list of `Func`s (used for `Bound`). -/
def composeOpt (step : Func → Object → Option Object) : List Func → Object → Option Object
  | [], v => some v
  | f :: fs, v => (step f v).bind fun w => composeOpt step fs w

/-- Iterate `step` `k` times collecting the values after each step:
`[step(v), step²(v), …, stepᵏ(v)]` (the `Repeat` loop body). -/
def iterCollect (step : Object → Option Object) : Nat → Object → Option (List Object)
  | 0, _ => some []
  | k + 1, current =>
    (step current).bind fun next =>
      (iterCollect step k next).bind fun rest => some (next :: rest)

/-- The `While` loop of `DoubleFunc::execute`: break (before collecting) on an
`Error` value, collect the current value, stop after collecting when the test
is falsy, otherwise step and continue.  The `Nat` is fuel. -/
def whileLoop (test step : Object → Option Object) : Nat → Object → Option (List Object)
  | 0, _ => none
  | m + 1, current =>
    if current.isError then some []
    else
      (test current).bind fun t =>
        if t.is_truthy then
          (step current).bind fun next =>
            (whileLoop test step m next).bind fun rest => some (current :: rest)
        else some [current]

/-- The `FixedPoint` loop of `HigherFunc::execute`: collect values until a
repeat (structural equality, the Rust `HashSet`) or an `Error` appears.
The `Nat` is fuel. -/
def fixLoop (step : Object → Option Object) :
    Nat → List Object → List Object → Object → Option (List Object)
  | 0, _, _, _ => none
  | m + 1, seen, seq, current =>
    if (seen.any fun o => Object.beq o current) || current.isError then some seq
    else
      (step current).bind fun next =>
        fixLoop step m (seen ++ [current]) (seq ++ [current]) next

/-- The inverse-permutation table of `HigherFunc::inverse_execute` for
`Order`: slot `perm` receives `index` for every `(index, perm)` in `indices`. -/
def invPermList (indices : List Nat) (len : Nat) : List (Option Nat) :=
  indices.enum.foldl (fun inv p => inv.set p.2 (some p.1)) (List.replicate len none)

/-- The fuel-indexed pair (forward evaluator, inverse evaluator), built by
structural recursion on the fuel so that concrete programs evaluate by
`rfl`.  Each nested call uses one unit less fuel; `none` at fuel `0`.
The two components translate Rust `Func::execute` / `Func::inverse_execute`
together with the `HigherFunc` and `DoubleFunc` dispatch they inline. -/
def evalPair : Nat → (Func → Object → Option Object) × (Func → Object → Option Object)
  | 0 => (fun _ _ => none, fun _ _ => none)
  | n + 1 =>
    (fun f v =>
      match f with
      | .basic p => p.execute v
      | .bound fs => composeOpt (evalPair n).1 fs.reverse v
      | .higher .map body => do
        let l ← v.to_list
        let outs ← mapMOpt ((evalPair n).1 body) l
        some (firstError outs)
      | .higher .filter body => do
        let l ← v.to_list
        let kept ← filterOpt ((evalPair n).1 body) l
        some (.list kept)
      | .higher .order body => do
        let l ← v.to_list
        let pairs ← keyPairs ((evalPair n).1 body) l
        some (.list ((keySort pairs).map Prod.fst))
      | .higher .fixedPoint body => do
        let seqv ← fixLoop ((evalPair n).1 body) n [] [] v
        some (.list seqv)
      | .higher .inverse body => (evalPair n).2 body v
      | .higher .repeat body =>
        let ts : Object × Object :=
          match v with
          | .list [] => (.list [], .list [])
          | .list [x] => (x, x)
          | .list (x :: y :: _) => (x, y)
          | v => (v, v)
        match ts.1 with
        | .list l => do
          let out ← iterCollect ((evalPair n).1 body) l.length ts.2
          some (.list (ts.2 :: out))
        | .int i =>
          if i < 0 then some (.list [])
          else do
            let out ← iterCollect ((evalPair n).1 body) i.toNat ts.2
            some (.list out)
        | .error _ => some (.list [])
      | .double .whileF f1 f2 => do
        let seqv ← whileLoop ((evalPair n).1 f1) ((evalPair n).1 f2) n v
        some (.list seqv)
      | .double .bifurcate f1 f2 => do
        let r1 ← (evalPair n).1 f1 v
        let r2 ← (evalPair n).1 f2 v
        if r1.isError then some r1
        else if r2.isError then some r2
        else some (.list [r1, r2]),
     fun f v =>
      match f with
      | .basic p => p.inverse_execute v
      | .bound fs => composeOpt (evalPair n).2 fs v
      | .higher .order body => do
        let l ← v.to_list
        let pairs ← keyPairs ((evalPair n).1 body) l
        let indices := (keySort (pairs.enum.map fun p => (p.1, p.2.2))).map Prod.fst
        let reordered ← (invPermList indices l.length).mapM fun oi => do
          let i ← oi
          l.get? i
        some (.list reordered)
      | .higher .inverse body => (evalPair n).1 body v
      | .higher h body => (evalPair n).1 (.higher h (.higher .inverse body)) v
      | .double d f1 f2 =>
        (evalPair n).1 (.double d (.higher .inverse f1) (.higher .inverse f2)) v)

/-- Rust `Func::execute` at the given fuel. -/
def Func.execute (n : Nat) (f : Func) (v : Object) : Option Object := (evalPair n).1 f v

/-- Rust `Func::inverse_execute` at the given fuel. -/
def Func.inverse_execute (n : Nat) (f : Func) (v : Object) : Option Object := (evalPair n).2 f v

/-- Rust `enum Token` with `enum BoundToken` flattened in. -/
inductive Token where
  | basic : BasicFunc → Token
  | higher : HigherFunc → Token
  | double : DoubleFunc → Token
  | bound1 | boundQuote | soloQuote
deriving Repr, DecidableEq

/-- Rust `enum HOF`, the parser's working-stack entries. -/
inductive HOF where
  | higher : HigherFunc → HOF
  | double : DoubleFunc → HOF
  | doubleHalf : DoubleFunc → Func → HOF
  | func : Func → HOF
  | quote : HOF
deriving Repr

/-- Whether a stack entry is the `Quote` marker. -/
def HOF.isQuote : HOF → Bool
  | .quote => true
  | _ => false

/-- Whether a stack entry is a closed `Func`. -/
def HOF.isFunc : HOF → Bool
  | .func _ => true
  | _ => false

/-- Number of `Quote` markers on a working stack. -/
def quoteCount (s : List HOF) : Nat := s.countP fun h => h.isQuote

/-- Rust `lex`'s per-character table; `none` is a lex error. -/
def charToken : Char → Option Token
  | 'a' => some (.basic .allPair)
  | 'b' => some (.double .bifurcate)
  | 'c' => some (.basic .combine)
  | 'e' => some (.basic .equal)
  | 'f' => some (.higher .filter)
  | 'h' => some (.basic .head)
  | 'i' => some (.higher .inverse)
  | 'l' => some (.basic .length)
  | 'm' => some (.higher .map)
  | 'n' => some (.basic .negate)
  | 'o' => some (.higher .order)
  | 'p' => some (.basic .product)
  | 'q' => some .boundQuote
  | 'r' => some (.higher .repeat)
  | 's' => some (.basic .sum)
  | 't' => some (.basic .tail)
  | 'w' => some (.double .whileF)
  | 'x' => some (.higher .fixedPoint)
  | 'y' => some (.basic .powerSet)
  | 'z' => some .bound1
  | _ => none

/-- Retag the first `BoundQuote` token as `SoloQuote`. -/
def retagFirstQuote : List Token → List Token
  | [] => []
  | t :: ts => if t = .boundQuote then Token.soloQuote :: ts else t :: retagFirstQuote ts

/-- Number of (paired) `BoundQuote` tokens. -/
def countBQ (ts : List Token) : Nat := ts.countP fun t => t = .boundQuote

/-- Rust `lex`: map each character to a token (`none` on an unknown
character), then retag the first `BoundQuote` as `SoloQuote` when the
`BoundQuote` count is odd. -/
def lex (code : String) : Option (List Token) :=
  (code.toList.mapM charToken).bind fun tokens =>
    if countBQ tokens % 2 = 1 then some (retagFirstQuote tokens) else some tokens

/-- The `SoloQuote` pre-step: insert a `Quote` marker immediately after the
first stack entry (from the bottom) that is not a closed `Func`; `none` when
every entry is a `Func` (the Rust panic).  The input list is bottom-first. -/
def insertSolo : List HOF → Option (List HOF)
  | [] => none
  | x :: xs =>
    if x.isFunc then (insertSolo xs).map fun ys => x :: ys
    else some (x :: .quote :: xs)

/-- The `Bound1` pop-loop: pop closed `Func`s into the bind group until an
open operator is found, then close it with the group as body.  The stack is
top-first; reaching the bottom or a `Quote` marker is a Rust panic (`none`).
The accumulator `acc` holds the popped `Func`s in textual order. -/
def bindLoop : List HOF → List Func → Option (List HOF)
  | [], _ => none
  | .func f :: rest, acc => bindLoop rest (f :: acc)
  | .higher h :: rest, acc => some (.func (.higher h (.bound acc)) :: rest)
  | .double d :: rest, acc => some (.doubleHalf d (.bound acc) :: rest)
  | .doubleHalf d f1 :: rest, acc => some (.func (.double d f1 (.bound acc)) :: rest)
  | .quote :: _, _ => none

/-- Weight used as the termination measure of `closeLoop`: a `Double` entry
counts twice because closing it with a buffered body first re-pushes a
`DoubleHalf`. -/
def hofWeight : HOF → Nat
  | .double _ => 2
  | _ => 1

/-- Total weight of a stack. -/
def stackWeight (s : List HOF) : Nat := (s.map hofWeight).sum

/-- Close the paired `Quote` once the pop-loop has reached it: the buffered
body closes the operator found directly beneath the `Quote` (a bare `Func`
beneath it closes a `Double` beneath that); anything else is a panic. -/
def closeAfterQuote (rest : List HOF) (body : Func) : Option (List HOF) :=
  match rest with
  | .higher h :: r => some (.func (.higher h body) :: r)
  | .double d :: r => some (.doubleHalf d body :: r)
  | .doubleHalf d f1 :: r => some (.func (.double d f1 body) :: r)
  | .func f :: .double d :: r2 => some (.func (.double d f body) :: r2)
  | _ => none

/-- The pop-loop run by a closing quote token: pop toward the paired `Quote`,
buffering `Func`s; an open operator met on the way absorbs the most recently
buffered `Func` as its body (or an empty `Bound` if the buffer is empty); a
`Double` with a buffered body is re-pushed as a `DoubleHalf`.  The stack is
top-first, `acc` is the buffer in textual order (head = most recent). -/
def closeLoop : List HOF → List Func → Option (List HOF)
  | [], _ => none
  | .func f :: rest, acc => closeLoop rest (f :: acc)
  | .quote :: rest, acc => closeAfterQuote rest (.bound acc)
  | .higher h :: rest, [] => closeLoop rest [.higher h (.bound [])]
  | .higher h :: rest, prev :: acc' => closeLoop rest (.higher h prev :: acc')
  | .double d :: rest, [] => closeLoop rest [.double d (.bound []) (.bound [])]
  | .double d :: rest, prev :: acc' => closeLoop (.doubleHalf d prev :: rest) acc'
  | .doubleHalf d f1 :: rest, [] => closeLoop rest [.double d f1 (.bound [])]
  | .doubleHalf d f1 :: rest, prev :: acc' => closeLoop rest (.double d f1 prev :: acc')
termination_by s acc => stackWeight s
decreasing_by all_goals simp [stackWeight, hofWeight]

/-- The quote-token arm: Rust asserts at most one `Quote` is on the stack,
pushes a `Quote` if there is none, and otherwise runs the closing pop-loop. -/
def quoteArm (s : List HOF) : Option (List HOF) :=
  if 1 < quoteCount s then none
  else if quoteCount s = 0 then some (.quote :: s)
  else closeLoop s []

/-- One iteration of the Rust `parse` token loop.  The stack is top-first. -/
def parseStep (t : Token) (s : List HOF) : Option (List HOF) :=
  match t with
  | .basic b => some (.func (.basic b) :: s)
  | .higher h => some (.higher h :: s)
  | .double d => some (.double d :: s)
  | .bound1 => bindLoop s []
  | .boundQuote => quoteArm s
  | .soloQuote =>
    if s.any HOF.isQuote then none
    else (insertSolo s.reverse).bind fun r' => quoteArm r'.reverse

/-- The Rust `parse` token loop over a whole token list. -/
def parseSteps : List Token → List HOF → Option (List HOF)
  | [], s => some s
  | t :: ts, s => (parseStep t s).bind fun s1 => parseSteps ts s1

/-- Rust end-of-stream entries of the secondary "open" stack (`enum HD`). -/
inductive HD where
  | h : HigherFunc → HD
  | d : DoubleFunc → HD
  | d2 : DoubleFunc → Func → HD
deriving Repr

/-- Absorption of a closed `Func` by the open stack during finalisation:
`Higher` entries wrap it and keep popping, a `Double` caches it as a
`DoubleHalf` and stops (`.inl`), `DoubleHalf` entries complete and keep
popping; an emptied open stack emits the finished `Func` (`.inr`). -/
def absorb : List HD → Func → (List HD) ⊕ Func
  | [], f => .inr f
  | .h hf :: rest, f => absorb rest (.higher hf f)
  | .d df :: rest, f => .inl (.d2 df f :: rest)
  | .d2 df old :: rest, f => absorb rest (.double df old f)

/-- The end-of-stream walk over the final working stack (given bottom-first):
closed `Func`s are absorbed by the open stack or appended to the output,
open operators are pushed onto the open stack, and a leftover `Quote` is a
Rust `unreachable!` (`none`). -/
def finalizeWalk : List HOF → List Func → List HD → Option (List Func × List HD)
  | [], funcs, opens => some (funcs, opens)
  | .func f :: rest, funcs, opens =>
    match absorb opens f with
    | .inr g => finalizeWalk rest (funcs ++ [g]) []
    | .inl opens' => finalizeWalk rest funcs opens'
  | .higher h :: rest, funcs, opens => finalizeWalk rest funcs (.h h :: opens)
  | .double d :: rest, funcs, opens => finalizeWalk rest funcs (.d d :: opens)
  | .doubleHalf d f :: rest, funcs, opens => finalizeWalk rest funcs (.d2 d f :: opens)
  | .quote :: _, _, _ => none

/-- Close the remaining open operators against a synthetic empty `Bound([])`
body (the Rust loop after the walk). -/
def closeOpen : List HD → Func → Func
  | [], w => w
  | .h h :: rest, w => closeOpen rest (.higher h w)
  | .d d :: rest, w => closeOpen rest (.double d w (.bound []))
  | .d2 d old :: rest, w => closeOpen rest (.double d old w)

/-- Rust `parse`: run the token loop, then finalise. -/
def parse (tokens : List Token) : Option Func := do
  let s ← parseSteps tokens []
  let (funcs, opens) ← finalizeWalk s.reverse [] []
  match opens with
  | [] => some (.bound funcs)
  | _ => some (.bound (funcs ++ [closeOpen opens (.bound [])]))

/-- Rust `run` restricted to the in-scope pipeline: lex, parse, and evaluate
forward on an already-parsed input value. -/
def runProg (program : String) (input : Object) (fuel : Nat) : Option Object := do
  let tokens ← lex program
  let func ← parse tokens
  Func.execute fuel func input

/-! ## Unfolding equations of the evaluator at successor fuel -/

/-- The `Map` arm of the forward evaluator, as an explicit bind chain. -/
theorem execute_map_eq (n : Nat) (P : Func) (v : Object) :
    Func.execute (n + 1) (.higher .map P) v =
      v.to_list.bind fun l =>
        (mapMOpt (Func.execute n P) l).bind fun outs => some (firstError outs) := rfl

/-- The `Filter` arm of the forward evaluator, as an explicit bind chain. -/
theorem execute_filter_eq (n : Nat) (P : Func) (v : Object) :
    Func.execute (n + 1) (.higher .filter P) v =
      v.to_list.bind fun l =>
        (filterOpt (Func.execute n P) l).bind fun kept => some (.list kept) := rfl

/-- The `While` arm of the forward evaluator, as an explicit bind chain. -/
theorem execute_while_eq (n : Nat) (f1 f2 : Func) (v : Object) :
    Func.execute (n + 1) (.double .whileF f1 f2) v =
      (whileLoop (Func.execute n f1) (Func.execute n f2) n v).bind fun seqv =>
        some (.list seqv) := rfl

/-! ## Helper lemmas about the loop combinators -/

/-- A successful `mapMOpt` preserves the length. -/
theorem mapMOpt_length (g : Object → Option Object) :
    ∀ (l outs : List Object), mapMOpt g l = some outs → outs.length = l.length := by
  intro l
  induction l with
  | nil => intro outs h; simp only [mapMOpt, Option.some.injEq] at h; simp [← h]
  | cons x xs ih =>
    intro outs h
    simp only [mapMOpt, Option.bind_eq_some, Option.some.injEq] at h
    obtain ⟨y, _, ys, hys, rfl⟩ := h
    simp [ih ys hys]

/-- Every element kept by a successful `filterOpt` has a truthy image. -/
theorem filterOpt_mem (g : Object → Option Object) :
    ∀ (l kept : List Object), filterOpt g l = some kept →
      ∀ e ∈ kept, ∃ r, g e = some r ∧ r.is_truthy = true := by
  intro l
  induction l with
  | nil =>
    intro kept h
    simp only [filterOpt, Option.some.injEq] at h
    simp [← h]
  | cons x xs ih =>
    intro kept h e he
    simp only [filterOpt, Option.bind_eq_some, Option.some.injEq] at h
    obtain ⟨r, hr, rest, hrest, rfl⟩ := h
    by_cases ht : r.is_truthy
    · rw [if_pos ht] at he
      rcases List.mem_cons.mp he with rfl | hmem
      · exact ⟨r, hr, ht⟩
      · exact ih rest hrest e hmem
    · rw [if_neg ht] at he
      exact ih rest hrest e he

/-- A successful `whileLoop` run starting from a non-`Error` value collects
that value first, and never collects an `Error` value. -/
theorem whileLoop_shape (test step : Object → Option Object) :
    ∀ (m : Nat) (v : Object) (out : List Object), whileLoop test step m v = some out →
      (v.isError = false → out.head? = some v) ∧ (∀ e ∈ out, e.isError = false) := by
  intro m
  induction m with
  | zero => intro v out h; simp [whileLoop] at h
  | succ m ih =>
    intro v out h
    rw [whileLoop] at h
    cases hv : v.isError with
    | true =>
      rw [if_pos hv] at h
      obtain rfl : ([] : List Object) = out := Option.some.inj h
      refine ⟨fun hc => ?_, by simp⟩
      simp at hc
    | false =>
      rw [if_neg (by simp [hv] : ¬v.isError = true)] at h
      rw [Option.bind_eq_some] at h
      obtain ⟨t, _, h⟩ := h
      cases ht : t.is_truthy with
      | true =>
        rw [if_pos ht] at h
        rw [Option.bind_eq_some] at h
        obtain ⟨next, _, h⟩ := h
        rw [Option.bind_eq_some] at h
        obtain ⟨rest, hrest, h2⟩ := h
        obtain rfl : v :: rest = out := Option.some.inj h2
        refine ⟨fun _ => rfl, ?_⟩
        intro e he
        rcases List.mem_cons.mp he with rfl | hmem
        · exact hv
        · exact (ih next rest hrest).2 e hmem
      | false =>
        rw [if_neg (by simp [ht] : ¬t.is_truthy = true)] at h
        obtain rfl : [v] = out := Option.some.inj h
        refine ⟨fun _ => rfl, ?_⟩
        intro e he
        rcases List.mem_cons.mp he with rfl | hmem
        · exact hv
        · cases hmem

/-! ## Claim C1: Sum on a list of Integers and Errors -/

/-- C1 (counterexample): on the List `[1, Error "e"]` — all elements Integer or
Error, with an Error present — the forward Sum primitive does *not* return the
numeric sum `1` of the Integer elements: the `all Integer` test fails, so the
list is flattened one level instead, returning `[1, Error "e"]` unchanged. -/
theorem c1_sum_counterexample :
    BasicFunc.execute .sum (.list [.int 1, .error "e"]) =
      some (.list [.int 1, .error "e"]) ∧
    Object.list [.int 1, .error "e"] ≠ Object.int 1 :=
  ⟨rfl, by simp⟩

/-- C1 (amended): forward Sum on a List returns the numeric sum only when all
elements are Integers; a list containing any non-Integer element — an Error as
much as a List — is flattened one level (Integers and Errors kept as-is, inner
Lists spliced). -/
theorem c1_sum_amended (l : List Object) :
    (l.all Object.isInt = true →
      BasicFunc.execute .sum (.list l) = some (.int (sumInts l))) ∧
    ((∃ e ∈ l, e.isInt = false) →
      BasicFunc.execute .sum (.list l) = some (.list (flattenOne l))) := by
  constructor
  · intro h
    simp [BasicFunc.execute, h]
  · rintro ⟨e, he, hnot⟩
    have : l.all Object.isInt = false := by
      rw [List.all_eq_false]
      exact ⟨e, he, by simp [hnot]⟩
    simp [BasicFunc.execute, this]

/-- C1 (witness for the amended claim): the list `[1, Error "e"]` contains a
non-Integer element, and Sum flattens it one level. -/
theorem c1_sum_amended_witness :
    BasicFunc.execute .sum (.list [.int 1, .error "e"]) =
      some (.list (flattenOne [.int 1, .error "e"])) :=
  (c1_sum_amended [.int 1, .error "e"]).2 ⟨.error "e", by simp, rfl⟩

/-! ## Claim C6: double Inverse is the identity wrapper -/

/-- The primitives with an explicitly defined inverse (spec §4.3.4):
Head, Tail, Sum, Product, Length. -/
def hasDefinedInverse : BasicFunc → Bool
  | .head | .tail | .sum | .product | .length => true
  | _ => false

/-- C6: for every primitive `p` with a defined inverse and every value `v`,
forward evaluation of `Inverse(Inverse(p))` equals forward evaluation of `p`
(the two `Inverse` wrappers consume two units of fuel and cancel). -/
theorem c6_double_inverse (p : BasicFunc) (hp : hasDefinedInverse p = true)
    (n : Nat) (v : Object) :
    Func.execute (n + 3) (.higher .inverse (.higher .inverse (.basic p))) v =
      Func.execute (n + 1) (.basic p) v := rfl

/-- C6 (witness): at `p = Head`, `v = 1`, both sides are `some 2`. -/
theorem c6_double_inverse_witness :
    Func.execute 4 (.higher .inverse (.higher .inverse (.basic .head))) (.int 1) =
      Func.execute 2 (.basic .head) (.int 1) :=
  c6_double_inverse .head rfl 1 (.int 1)

/-! ## Claim C7: inverse Product on a pair of Integers is divmod -/

/-- C7: the inverse of Product on a List of exactly two Integers `[num, den]`
is `Error` when `den = 0` and otherwise `[num / den, num mod den]` with
truncated-toward-zero division (`Int.tdiv` / `Int.tmod`); the quotient and
remainder recompose to `num`. -/
theorem c7_product_inverse_divmod (num den : Int) :
    (BasicFunc.inverse_execute .product (.list [.int num, .int den]) =
      if den = 0 then some (.error "Divide by zero")
      else some (.list [.int (num.tdiv den), .int (num.tmod den)])) ∧
    (den ≠ 0 → den * num.tdiv den + num.tmod den = num) := by
  refine ⟨rfl, fun _ => Int.tdiv_add_tmod num den⟩

/-- C7 (witness): `[7, -2]` divides to `[-3, 1]` (truncation toward zero),
and `-2 * -3 + 1 = 7`. -/
theorem c7_product_inverse_divmod_witness :
    BasicFunc.inverse_execute .product (.list [.int 7, .int (-2)]) =
      some (.list [.int (-3), .int 1]) ∧
    (-2 : Int) * ((7 : Int).tdiv (-2)) + (7 : Int).tmod (-2) = 7 :=
  ⟨by rw [(c7_product_inverse_divmod 7 (-2)).1]; norm_num; decide,
   (c7_product_inverse_divmod 7 (-2)).2 (by norm_num)⟩

/-! ## Claim C2: the 2014 end-to-end scenario -/

set_option maxRecDepth 8000 in
/-- C2: lexing and parsing `"ttsmzyhhyhh"` and evaluating forward on
`Integer 0` yields `Integer 2014` (at fuel 20; the pipeline is
`h,h → 2`, `y → 4`, `h,h → 6`, `y → 64`, `mz → [0..63]`, `s → 2016`,
`t,t → 2014`). -/
theorem c2_make_2014 : runProg "ttsmzyhhyhh" (.int 0) 20 = some (.int 2014) := rfl

/-! ## Claim C3: Repeat's split of the argument and iteration counts -/

/-- The claim's reading of how `Repeat` splits its argument into
`(times, start)`: a List of length ≥ 2 gives its first two elements, a List
of length 1 gives that element twice, the empty List gives itself twice, and
an Integer or Error gives the whole value twice. -/
def repeatSplitSpec : Object → Object × Object
  | .list (a :: b :: _) => (a, b)
  | .list [a] => (a, a)
  | .list [] => (.list [], .list [])
  | .int i => (.int i, .int i)
  | .error s => (.error s, .error s)

/-- The claim's reading of forward `Repeat(body)`: split `(times, start)`,
then a List `times` of length `k` yields `[start, body(start), …, bodyᵏ(start)]`,
a non-negative Integer `times = k` yields `[body(start), …, bodyᵏ(start)]`
(without `start`), and a negative Integer or Error `times` yields the empty
List. -/
def repeatSpec (n : Nat) (body : Func) (v : Object) : Option Object :=
  match repeatSplitSpec v with
  | (times, start) =>
    match times with
    | .list l =>
      (iterCollect (Func.execute n body) l.length start).bind fun out =>
        some (.list (start :: out))
    | .int k =>
      if k < 0 then some (.list [])
      else (iterCollect (Func.execute n body) k.toNat start).bind fun out =>
        some (.list out)
    | .error _ => some (.list [])

/-- C3: the evaluator's `Repeat` arm agrees with the claim's description
`repeatSpec` on every body and every value. -/
theorem c3_repeat_split (n : Nat) (body : Func) (v : Object) :
    Func.execute (n + 1) (.higher .repeat body) v = repeatSpec n body v := by
  cases v with
  | int i => rfl
  | error s => rfl
  | list l =>
    match l with
    | [] => rfl
    | [a] => cases a <;> rfl
    | a :: b :: rest => cases a <;> rfl

/-! ## Claim C4: While and Error values -/

/-- C4 (counterexample): forward `While` on the Error input `boom` returns the
*empty* List — the loop breaks on an Error before collecting it — not a List
whose first element is the Error, as the claim states. -/
theorem c4_while_counterexample :
    Func.execute 3 (.double .whileF (.bound []) (.bound [])) (.error "boom") =
      some (.list []) ∧
    ∀ rest, Object.list [] ≠ Object.list (Object.error "boom" :: rest) :=
  ⟨rfl, by simp⟩

/-- C4 (amended): forward `While(left, right)` checks for an Error *before*
collecting, so an Error input yields the empty List; for a non-Error input the
returned sequence starts with the input, and an Error produced by `right`
stops the loop without being appended, so the returned List never contains an
Error element. -/
theorem c4_while_amended (n : Nat) (f1 f2 : Func) (v : Object) :
    (Func.execute (n + 2) (.double .whileF f1 f2) v =
      (whileLoop (Func.execute (n + 1) f1) (Func.execute (n + 1) f2) (n + 1) v).bind
        fun seqv => some (.list seqv)) ∧
    (v.isError = true →
      Func.execute (n + 2) (.double .whileF f1 f2) v = some (.list [])) ∧
    (∀ out, Func.execute (n + 2) (.double .whileF f1 f2) v = some (.list out) →
      (v.isError = false → out.head? = some v) ∧ ∀ e ∈ out, e.isError = false) := by
  refine ⟨rfl, ?_, ?_⟩
  · intro hv
    show (whileLoop (Func.execute (n + 1) f1) (Func.execute (n + 1) f2) (n + 1) v).bind
        (fun seqv => some (Object.list seqv)) = some (Object.list [])
    rw [whileLoop, if_pos hv]
    rfl
  · intro out hout
    have hout2 : (whileLoop (Func.execute (n + 1) f1) (Func.execute (n + 1) f2) (n + 1) v).bind
        (fun seqv => some (Object.list seqv)) = some (.list out) := hout
    rw [Option.bind_eq_some] at hout2
    obtain ⟨seqv, hseq, h2⟩ := hout2
    obtain rfl : seqv = out := Object.list.inj (Option.some.inj h2)
    exact whileLoop_shape _ _ _ _ _ hseq

/-- C4 (witness for the amended claim): on the Error input `x`, `While`
returns the empty List. -/
theorem c4_while_amended_witness :
    Func.execute 3 (.double .whileF (.bound []) (.bound [])) (.error "x") =
      some (.list []) :=
  (c4_while_amended 1 (.bound []) (.bound []) (.error "x")).2.1 rfl

/-! ## Claim C5: Map propagates the first element Error -/

/-- C5: for every body `P` and non-Error value `v` (so that `as_sequence(v)`
exists) whose elementwise images all evaluate (`mapMOpt … = some outs`): if
some image is an Error, forward `Map(P)` returns the first such Error;
otherwise it returns the List of images, whose length equals the length of
`as_sequence(v)`. -/
theorem c5_map_first_error (n : Nat) (P : Func) (v : Object) (l outs : List Object)
    (hl : v.to_list = some l) (houts : mapMOpt (Func.execute n P) l = some outs) :
    (∀ e, outs.find? Object.isError = some e →
      Func.execute (n + 1) (.higher .map P) v = some e) ∧
    (outs.find? Object.isError = none →
      Func.execute (n + 1) (.higher .map P) v = some (.list outs) ∧
      outs.length = l.length) := by
  have hx : Func.execute (n + 1) (.higher .map P) v = some (firstError outs) := by
    rw [execute_map_eq]
    simp [hl, houts]
  constructor
  · intro e he
    rw [hx]
    simp [firstError, he]
  · intro hnone
    refine ⟨?_, mapMOpt_length _ _ _ houts⟩
    rw [hx]
    simp [firstError, hnone]

/-- C5 (witness): mapping `Tail` over `[[], [7]]` produces the Error from the
first element, and Map returns exactly that Error. -/
theorem c5_map_first_error_witness :
    Func.execute 3 (.higher .map (.basic .tail)) (.list [.list [], .list [.int 7]]) =
      some (.error "Tail of empty list") :=
  (c5_map_first_error 2 (.basic .tail) (.list [.list [], .list [.int 7]])
    [.list [], .list [.int 7]] [.error "Tail of empty list", .list []]
    rfl rfl).1 (.error "Tail of empty list") rfl

/-! ## Claim C8: Filter never propagates element Errors -/

/-- C8: for every body `P` and non-Error value `v` whose elementwise images
all evaluate, forward `Filter(P)` returns a List (never a top-level Error);
every kept element has a truthy image, and Error values are falsy — so
elements whose image is an Error are silently excluded. -/
theorem c8_filter_absorbs_errors (n : Nat) (P : Func) (v : Object)
    (l kept : List Object)
    (hl : v.to_list = some l) (hk : filterOpt (Func.execute n P) l = some kept) :
    Func.execute (n + 1) (.higher .filter P) v = some (.list kept) ∧
    (∀ e ∈ kept, ∃ r, Func.execute n P e = some r ∧ r.is_truthy = true) ∧
    (∀ s, (Object.error s).is_truthy = false) := by
  refine ⟨?_, filterOpt_mem _ _ _ hk, fun s => rfl⟩
  rw [execute_filter_eq]
  simp [hl, hk]

/-- C8 (witness): filtering `[[], [7]]` through `Tail` keeps nothing — the
first element's image is an Error (falsy), the second's is the empty list
(falsy) — and Filter returns the empty List, not an Error. -/
theorem c8_filter_absorbs_errors_witness :
    Func.execute 3 (.higher .filter (.basic .tail)) (.list [.list [], .list [.int 7]]) =
      some (.list []) :=
  (c8_filter_absorbs_errors 2 (.basic .tail) (.list [.list [], .list [.int 7]])
    [.list [], .list [.int 7]] [] rfl rfl).1

/-! ## Claim C9: Combine on the empty list aborts -/

/-- C9: forward `Combine` on the empty List is a program error — the Rust
`.max().expect(…)` panics, modelled as `none` — while on a non-empty List with
no `Error` element it returns a List of rows (`combineRow` applied to every
index below the longest element length). -/
theorem c9_combine_empty_aborts :
    BasicFunc.execute .combine (.list []) = none ∧
    ∀ (l : List Object), l ≠ [] → (∀ e ∈ l, e.isError = false) →
      ∃ longest : Nat, BasicFunc.execute .combine (.list l) =
        some (.list ((List.range longest).map fun index =>
          .list (combineRow l index))) := by
  refine ⟨rfl, ?_⟩
  intro l hne herr
  cases l with
  | nil => exact absurd rfl hne
  | cons x xs =>
    have hf : (x :: xs).find? Object.isError = none := by
      rw [List.find?_eq_none]
      intro e he
      simp [herr e he]
    cases hm : ((x :: xs).map elemLen).max? with
    | none => simp [List.max?] at hm
    | some longest =>
      refine ⟨longest, ?_⟩
      simp only [BasicFunc.execute, hf, hm]

/-- C9 (witness): `Combine` on the non-empty, Error-free List `[1]` returns a
List of rows. -/
theorem c9_combine_empty_aborts_witness :
    ∃ longest : Nat, BasicFunc.execute .combine (.list [.int 1]) =
      some (.list ((List.range longest).map fun index =>
        .list (combineRow [.int 1] index))) :=
  c9_combine_empty_aborts.2 [.int 1] (by simp)
    (by intro e he; rw [List.mem_singleton] at he; subst he; rfl)

/-! ## Claim C10: the parser's quote invariant -/

/-- The quote count distributes over `cons`. -/
theorem quoteCount_cons (x : HOF) (s : List HOF) :
    quoteCount (x :: s) = quoteCount s + (if x.isQuote then 1 else 0) :=
  List.countP_cons _ _ _

/-- The quote count is invariant under reversal. -/
theorem quoteCount_reverse (s : List HOF) : quoteCount s.reverse = quoteCount s := by
  simp [quoteCount, List.countP_eq_length_filter, List.filter_reverse]

/-- A successful `closeAfterQuote` preserves the quote count of the remaining
stack (it only pops non-`Quote` entries and pushes non-`Quote` entries). -/
theorem closeAfterQuote_quoteCount (rest : List HOF) (body : Func) (s' : List HOF)
    (h : closeAfterQuote rest body = some s') : quoteCount s' = quoteCount rest := by
  match rest, h with
  | .higher hf :: r, h =>
    obtain rfl := Option.some.inj h
    simp [quoteCount_cons, HOF.isQuote]
  | .double d :: r, h =>
    obtain rfl := Option.some.inj h
    simp [quoteCount_cons, HOF.isQuote]
  | .doubleHalf d f1 :: r, h =>
    obtain rfl := Option.some.inj h
    simp [quoteCount_cons, HOF.isQuote]
  | .func f :: .double d :: r2, h =>
    obtain rfl := Option.some.inj h
    simp [quoteCount_cons, HOF.isQuote]

/-- A successful quote-closing pop-loop removes exactly one `Quote` marker
from the stack (the paired one) and pushes none. -/
theorem closeLoop_quoteCount :
    ∀ (s : List HOF) (acc : List Func) (s' : List HOF),
      closeLoop s acc = some s' → quoteCount s = quoteCount s' + 1 := by
  intro s acc
  induction s, acc using closeLoop.induct with
  | case1 => intro s' h; simp [closeLoop] at h
  | case2 f rest acc ih =>
    intro s' h
    rw [closeLoop] at h
    rw [quoteCount_cons]
    simpa [HOF.isQuote] using ih s' h
  | case3 rest acc =>
    intro s' h
    rw [closeLoop] at h
    rw [quoteCount_cons]
    simp [HOF.isQuote, closeAfterQuote_quoteCount rest _ s' h]
  | case4 hf rest ih =>
    intro s' h
    rw [closeLoop] at h
    rw [quoteCount_cons]
    simpa [HOF.isQuote] using ih s' h
  | case5 hf rest prev acc' ih =>
    intro s' h
    rw [closeLoop] at h
    rw [quoteCount_cons]
    simpa [HOF.isQuote] using ih s' h
  | case6 d rest ih =>
    intro s' h
    rw [closeLoop] at h
    rw [quoteCount_cons]
    simpa [HOF.isQuote] using ih s' h
  | case7 d rest prev acc' ih =>
    intro s' h
    rw [closeLoop] at h
    rw [quoteCount_cons]
    have := ih s' h
    rw [quoteCount_cons] at this
    simpa [HOF.isQuote] using this
  | case8 d f1 rest ih =>
    intro s' h
    rw [closeLoop] at h
    rw [quoteCount_cons]
    simpa [HOF.isQuote] using ih s' h
  | case9 d f1 rest prev acc' ih =>
    intro s' h
    rw [closeLoop] at h
    rw [quoteCount_cons]
    simpa [HOF.isQuote] using ih s' h

/-- A successful `SoloQuote` insertion adds exactly one `Quote` marker. -/
theorem insertSolo_quoteCount :
    ∀ (r r' : List HOF), insertSolo r = some r' → quoteCount r' = quoteCount r + 1 := by
  intro r
  induction r with
  | nil => intro r' h; simp [insertSolo] at h
  | cons x xs ih =>
    intro r' h
    rw [insertSolo] at h
    by_cases hx : x.isFunc
    · rw [if_pos hx] at h
      cases hi : insertSolo xs with
      | none => rw [hi] at h; simp at h
      | some ys =>
        rw [hi] at h
        obtain rfl := Option.some.inj (by simpa using h)
        rw [quoteCount_cons, quoteCount_cons, ih ys hi]
        omega
    · rw [if_neg hx] at h
      obtain rfl := Option.some.inj h
      rw [quoteCount_cons, quoteCount_cons, quoteCount_cons]
      simp [HOF.isQuote]
      omega

/-- A successful `Bound1` pop-loop leaves the quote count unchanged (it stops
with a panic on any `Quote` it meets). -/
theorem bindLoop_quoteCount :
    ∀ (s : List HOF) (acc : List Func) (s' : List HOF),
      bindLoop s acc = some s' → quoteCount s' = quoteCount s := by
  intro s
  induction s with
  | nil => intro acc s' h; simp [bindLoop] at h
  | cons x xs ih =>
    intro acc s' h
    cases x with
    | func f =>
      rw [bindLoop] at h
      rw [quoteCount_cons, ih (f :: acc) s' h]
      simp [HOF.isQuote]
    | higher hf =>
      rw [bindLoop] at h
      obtain rfl := Option.some.inj h
      simp [quoteCount_cons, HOF.isQuote]
    | double d =>
      rw [bindLoop] at h
      obtain rfl := Option.some.inj h
      simp [quoteCount_cons, HOF.isQuote]
    | doubleHalf d f1 =>
      rw [bindLoop] at h
      obtain rfl := Option.some.inj h
      simp [quoteCount_cons, HOF.isQuote]
    | quote =>
      rw [bindLoop] at h
      simp at h

/-- If no entry of the stack is a `Quote`, the quote count is zero. -/
theorem quoteCount_eq_zero_of_not_any (s : List HOF) (h : s.any HOF.isQuote = false) :
    quoteCount s = 0 := by
  rw [quoteCount, List.countP_eq_zero]
  intro a ha
  have := List.any_eq_false.mp h a ha
  simpa using this

/-- Effect of one parser step on the quote count: assuming the invariant
`quoteCount s ≤ 1`, a successful step keeps the count at most one and flips
its parity exactly on a (paired) `BoundQuote` token. -/
theorem parseStep_quoteCount (t : Token) (s s' : List HOF)
    (h : parseStep t s = some s') (hle : quoteCount s ≤ 1) :
    quoteCount s' ≤ 1 ∧
      quoteCount s' = (quoteCount s + (if t = .boundQuote then 1 else 0)) % 2 := by
  cases t with
  | basic b =>
    obtain rfl := Option.some.inj h
    rw [quoteCount_cons]
    simp [HOF.isQuote]
    omega
  | higher hf =>
    obtain rfl := Option.some.inj h
    rw [quoteCount_cons]
    simp [HOF.isQuote]
    omega
  | double d =>
    obtain rfl := Option.some.inj h
    rw [quoteCount_cons]
    simp [HOF.isQuote]
    omega
  | bound1 =>
    have := bindLoop_quoteCount s [] s' h
    simp only [if_neg (by simp : ¬Token.bound1 = Token.boundQuote)]
    omega
  | boundQuote =>
    rw [parseStep, quoteArm] at h
    rcases Nat.lt_or_ge 1 (quoteCount s) with hgt | hle2
    · rw [if_pos hgt] at h; cases h
    · rw [if_neg (by omega)] at h
      by_cases h0 : quoteCount s = 0
      · rw [if_pos h0] at h
        obtain rfl := Option.some.inj h
        rw [quoteCount_cons]
        simp [HOF.isQuote]
        omega
      · rw [if_neg h0] at h
        have := closeLoop_quoteCount s [] s' h
        have hif : (if Token.boundQuote = Token.boundQuote then (1 : Nat) else 0) = 1 := by
          simp
        rw [hif]
        omega
  | soloQuote =>
    rw [parseStep] at h
    cases hq : s.any HOF.isQuote with
    | true => rw [hq] at h; simp at h
    | false =>
      rw [if_neg (by simp [hq])] at h
      rw [Option.bind_eq_some] at h
      obtain ⟨r', hr', harm⟩ := h
      have h0 : quoteCount s = 0 := quoteCount_eq_zero_of_not_any s hq
      have h1 : quoteCount r'.reverse = 1 := by
        rw [quoteCount_reverse, insertSolo_quoteCount s.reverse r' hr',
          quoteCount_reverse, h0]
      rw [quoteArm] at harm
      rw [if_neg (by omega), if_neg (by omega)] at harm
      have := closeLoop_quoteCount r'.reverse [] s' harm
      have hif : (if Token.soloQuote = Token.boundQuote then (1 : Nat) else 0) = 0 := by
        simp
      rw [hif]
      omega

/-- The parser-loop invariant over a whole token list: starting from a stack
with at most one `Quote`, every successful run ends with at most one `Quote`,
and the final parity of the quote count is the initial parity shifted by the
number of `BoundQuote` tokens consumed. -/
theorem parseSteps_quoteCount :
    ∀ (ts : List Token) (s s' : List HOF),
      parseSteps ts s = some s' → quoteCount s ≤ 1 →
      quoteCount s' ≤ 1 ∧ quoteCount s' % 2 = (quoteCount s + countBQ ts) % 2 := by
  intro ts
  induction ts with
  | nil =>
    intro s s' h hle
    obtain rfl := Option.some.inj h
    simp [countBQ]
    omega
  | cons t ts ih =>
    intro s s' h hle
    rw [parseSteps, Option.bind_eq_some] at h
    obtain ⟨s1, h1, h2⟩ := h
    obtain ⟨hle1, hpar1⟩ := parseStep_quoteCount t s s1 h1 hle
    obtain ⟨hle', hpar'⟩ := ih s1 s' h2 hle1
    refine ⟨hle', ?_⟩
    have hcons : countBQ (t :: ts) = (if t = .boundQuote then 1 else 0) + countBQ ts := by
      rw [countBQ, List.countP_cons]
      by_cases hbq : t = .boundQuote <;> simp [countBQ, hbq] <;> omega
    rw [hcons]
    omega

/-- An odd `BoundQuote` count drops by one on retagging the first quote. -/
theorem countBQ_retagFirstQuote :
    ∀ (ts : List Token), 0 < countBQ ts →
      countBQ (retagFirstQuote ts) = countBQ ts - 1 := by
  intro ts
  induction ts with
  | nil => intro h; simp [countBQ] at h
  | cons t ts ih =>
    intro h
    rw [retagFirstQuote]
    by_cases ht : t = .boundQuote
    · rw [if_pos ht]
      subst ht
      simp [countBQ, List.countP_cons]
    · rw [if_neg ht]
      have hpos : 0 < countBQ ts := by
        rw [countBQ, List.countP_cons] at h
        simpa [ht, countBQ] using h
      have := ih hpos
      rw [countBQ, List.countP_cons, countBQ, List.countP_cons]
      simp only [countBQ] at this
      simp [ht]
      omega

/-- Every token list the lexer produces has an even `BoundQuote` count. -/
theorem lex_countBQ_even (code : String) (ts : List Token)
    (h : lex code = some ts) : countBQ ts % 2 = 0 := by
  rw [lex, Option.bind_eq_some] at h
  obtain ⟨tokens, _, h2⟩ := h
  by_cases hodd : countBQ tokens % 2 = 1
  · rw [if_pos hodd] at h2
    obtain rfl := Option.some.inj h2
    rw [countBQ_retagFirstQuote tokens (by omega)]
    omega
  · rw [if_neg hodd] at h2
    obtain rfl := Option.some.inj h2
    omega

/-- C10: while parsing any token stream produced by the lexer, after every
prefix of the stream the working stack holds at most one `Quote` marker, and
when the whole stream has been consumed — i.e. when end-of-stream
finalisation begins — no `Quote` marker remains. -/
theorem c10_quote_invariant (code : String) (ts pre post : List Token)
    (s : List HOF) (hlex : lex code = some ts) (hsplit : ts = pre ++ post)
    (hsteps : parseSteps pre [] = some s) :
    quoteCount s ≤ 1 ∧ (post = [] → quoteCount s = 0) := by
  have h1 := parseSteps_quoteCount pre [] s hsteps (by simp [quoteCount])
  refine ⟨h1.1, ?_⟩
  intro hpost
  subst hpost
  rw [List.append_nil] at hsplit
  have heven := lex_countBQ_even code ts hlex
  rw [hsplit] at heven
  have h2 := h1.2
  rw [show quoteCount ([] : List HOF) = 0 from rfl] at h2
  omega

/-- C10 (witness): after the prefix `qm` of the lexed program `qmhq`, the
stack is `[Higher Map, Quote]` (top first), holding exactly one `Quote`. -/
theorem c10_quote_invariant_witness :
    quoteCount [HOF.higher .map, HOF.quote] ≤ 1 ∧
      ([Token.basic .head, Token.boundQuote] = [] →
        quoteCount [HOF.higher .map, HOF.quote] = 0) :=
  c10_quote_invariant "qmhq"
    [Token.boundQuote, Token.higher .map, Token.basic .head, Token.boundQuote]
    [Token.boundQuote, Token.higher .map]
    [Token.basic .head, Token.boundQuote]
    [HOF.higher .map, HOF.quote] rfl rfl rfl

end Minipyth
